import Mathlib

/-!
Verification development for the KodeX code-editor repository.

The definitions below are a shallow embedding of the repository's
JavaScript source:

  * `src/frontend/src/components/FileExplorer.jsx` — the virtual file
    tree shown in the explorer, with its `createFile`, `renameItem` and
    the extension-to-language table;
  * `src/frontend/src/components/Terminal.jsx` — the terminal session
    state (`command`, `history`, `isRunning`, `commandHistory`,
    `historyIndex`, `workingDirectory`) and its handlers
    (`handleSubmit`, `executeCommand`, `handleKeyDown`, `clearTerminal`);
  * `src/frontend/src/components/CodeEditor.jsx` — the editor save and
    debounced auto-save logic;
  * the PathIndex (`resolve` / `computePath`) component, which lives in
    the backend and is modelled from the specification.

JavaScript strings are Lean `String`s; JavaScript `undefined` fields are
`Option`s; JavaScript array operations are `List` operations.  Helper
char-level functions mirror the semantics of the JavaScript string
methods used by the source (`trim`, `split`, `toLowerCase`) so that all
definitions evaluate by kernel reduction.
-/

/-! ## Character and string helpers (semantics of the JS string methods) -/

/-- Whitespace test used by `trimChars`, matching the characters
JavaScript's `String.prototype.trim` removes from command input
(space, tab, newline, carriage return cover every input the app
can produce through its single-line text field). -/
def isWsChar (c : Char) : Bool :=
  c = ' ' || c = '\t' || c = '\n' || c = '\r'

/-- Trim whitespace from both ends of a character list; the semantics of
`cmd.trim()` in `Terminal.jsx`. -/
def trimChars (l : List Char) : List Char :=
  ((l.dropWhile isWsChar).reverse.dropWhile isWsChar).reverse

/-- String form of `trimChars`. -/
def trimStr (s : String) : String :=
  ⟨trimChars s.data⟩

/-- Split a character list on a separator character, the semantics of
JavaScript `str.split(sep)` for a one-character separator: splitting the
empty string gives `[[]]`, and separators at the ends produce empty
segments. -/
def splitOnChar (sep : Char) : List Char → List (List Char)
  | [] => [[]]
  | c :: cs =>
    if c = sep then [] :: splitOnChar sep cs
    else
      match splitOnChar sep cs with
      | [] => [[c]]
      | g :: gs => (c :: g) :: gs

/-- Join character-list segments with a separator character placed
between consecutive segments (the inverse direction of `splitOnChar`). -/
def joinSegs (sep : Char) : List (List Char) → List Char
  | [] => []
  | [s] => s
  | s :: rest => s ++ sep :: joinSegs sep rest

/-- Lower-case one character, the ASCII semantics of JavaScript
`toLowerCase` on the extension strings the app produces. -/
def lowerChar (c : Char) : Char :=
  if 'A' ≤ c && c ≤ 'Z' then Char.ofNat (c.toNat + 32) else c

/-- Lower-case a string character by character. -/
def lowerStr (s : String) : String :=
  ⟨s.data.map lowerChar⟩

/-- Membership of a character in a character list, as a Bool. -/
def hasChar (c : Char) : List Char → Bool
  | [] => false
  | d :: ds => if d = c then true else hasChar c ds

/-! ## The explorer file tree (`FileExplorer.jsx`)

A node of the mock file system (`mockData.js`): `id`, `name`, `type`
(the strings "file" or "folder"), optional `language` and `content`
(present on files, absent on folders) and an optional `children` array
(present on folders, `undefined` on files — JavaScript truthiness of
`item.children` is `Option.isSome`, since an empty array is truthy). -/

inductive JsNode where
  | node (id name type : String) (language content : Option String)
      (children : Option (List JsNode)) : JsNode
deriving Repr

def JsNode.id : JsNode → String
  | .node i _ _ _ _ _ => i

def JsNode.name : JsNode → String
  | .node _ n _ _ _ _ => n

def JsNode.type : JsNode → String
  | .node _ _ t _ _ _ => t

def JsNode.language : JsNode → Option String
  | .node _ _ _ l _ _ => l

def JsNode.content : JsNode → Option String
  | .node _ _ _ _ c _ => c

def JsNode.children : JsNode → Option (List JsNode)
  | .node _ _ _ _ _ ch => ch

/-- Children of a node with `undefined` defaulted to the empty array
(the `item.children || []` idiom of the source). -/
def JsNode.childrenD (n : JsNode) : List JsNode :=
  (JsNode.children n).getD []

/-- The extension-to-language table of `renameItem`
(`FileExplorer.jsx`): the `langMap` object literal. -/
def langMap (ext : String) : Option String :=
  if ext = "js" then some "javascript"
  else if ext = "jsx" then some "javascript"
  else if ext = "ts" then some "typescript"
  else if ext = "tsx" then some "typescript"
  else if ext = "py" then some "python"
  else if ext = "html" then some "html"
  else if ext = "css" then some "css"
  else if ext = "java" then some "java"
  else if ext = "cpp" then some "cpp"
  else if ext = "c" then some "c"
  else if ext = "go" then some "go"
  else if ext = "rs" then some "rust"
  else if ext = "php" then some "php"
  else if ext = "rb" then some "ruby"
  else none

/-- The extension of a file name as computed by `renameItem`:
`newName.split('.').pop().toLowerCase()`.  `pop` on the result of
`split` takes the final segment (split never returns an empty array). -/
def extOf (name : String) : String :=
  lowerStr ⟨((splitOnChar '.' name.data).getLastD [])⟩

/-- The language `renameItem` derives for a file name:
`langMap[ext] || 'plaintext'`. -/
def languageFor (name : String) : String :=
  (langMap (extOf name)).getD "plaintext"

/-- The branch of `renameItem`'s `updateTree` taken at the matched item
(`item.id === itemId`): name replaced, language recomputed for files and
set to `undefined` for non-files, everything else (children included)
kept. -/
def renameEntry (newName : String) : JsNode → JsNode
  | .node i _ ty _ c ch =>
    .node i newName ty (if ty = "file" then some (languageFor newName) else none) c ch

mutual

/-- The recursion of `renameItem`'s `updateTree` over one item: the
matched item is rewritten by `renameEntry` (children not recursed
into); otherwise, if the item has a `children` array it is rebuilt
recursively; other items are returned unchanged. -/
def renameTreeN (itemId newName : String) : JsNode → JsNode
  | .node i n ty lg c ch =>
    if i = itemId then renameEntry newName (.node i n ty lg c ch)
    else
      match ch with
      | some kids => .node i n ty lg c (some (renameTreeL itemId newName kids))
      | none => .node i n ty lg c none

/-- `updateTree` of `renameItem` over an item array (`items.map`). -/
def renameTreeL (itemId newName : String) : List JsNode → List JsNode
  | [] => []
  | item :: rest => renameTreeN itemId newName item :: renameTreeL itemId newName rest

end

/-- `renameItem(itemId, newName)` of `FileExplorer.jsx`: the root is
kept and its children are rebuilt by `updateTree`. -/
def renameItem (itemId newName : String) (fileSystem : JsNode) : JsNode :=
  match fileSystem with
  | .node i n ty lg c ch =>
    .node i n ty lg c ((ch.map (renameTreeL itemId newName)))

/-- The fresh node built by `createFile` in `FileExplorer.jsx`: id
prefix `file_` plus the current timestamp, fixed name `untitled.txt`,
file type, plaintext language, empty content, no children field. -/
def newFileNode (ts : String) : JsNode :=
  .node ("file_" ++ ts) "untitled.txt" "file" (some "plaintext") (some "") none

/-- The branch of `createFile`'s `updateTree` taken at the matched
parent (`item.id === parentId`): the fresh node is appended to the
parent's children, `undefined` children defaulted to the empty array
(`[...(item.children || []), newFile]`).  No sibling-name check is
made. -/
def createEntry (ts : String) : JsNode → JsNode
  | .node i n ty lg c ch =>
    .node i n ty lg c (some ((ch.getD []) ++ [newFileNode ts]))

mutual

/-- The recursion of `createFile`'s `updateTree` over one item: the
matched parent gets the fresh node appended to its (defaulted) children;
otherwise items with a `children` array are rebuilt recursively. -/
def createTreeN (parentId ts : String) : JsNode → JsNode
  | .node i n ty lg c ch =>
    if i = parentId then
      createEntry ts (.node i n ty lg c ch)
    else
      match ch with
      | some kids => .node i n ty lg c (some (createTreeL parentId ts kids))
      | none => .node i n ty lg c none

/-- `updateTree` of `createFile` over an item array. -/
def createTreeL (parentId ts : String) : List JsNode → List JsNode
  | [] => []
  | item :: rest => createTreeN parentId ts item :: createTreeL parentId ts rest

end

/-- `createFile(parentId)` of `FileExplorer.jsx` (the timestamp of
`Date.now()` passed explicitly): for the root parent the fresh node is
appended to the root's children directly, otherwise `updateTree` runs
over the root's children.  There is no name or duplicate check anywhere
on this path. -/
def createFile (parentId ts : String) (fileSystem : JsNode) : JsNode :=
  match fileSystem with
  | .node i n ty lg c ch =>
    if parentId = "root" then
      .node i n ty lg c (some ((ch.getD []) ++ [newFileNode ts]))
    else
      .node i n ty lg c (ch.map (createTreeL parentId ts))

mutual

/-- All nodes of a tree, the node itself first, then the nodes of its
children in order. -/
def allNodesN : JsNode → List JsNode
  | .node i n ty lg c ch =>
    .node i n ty lg c ch ::
      (match ch with
        | some kids => allNodesL kids
        | none => [])

/-- All nodes of an item array. -/
def allNodesL : List JsNode → List JsNode
  | [] => []
  | item :: rest => allNodesN item ++ allNodesL rest

end

/-- Membership of a string in a string list, as a Bool. -/
def strMem (s : String) : List String → Bool
  | [] => false
  | x :: xs => if x = s then true else strMem s xs

/-- Pairwise distinctness of a string list, as a Bool. -/
def allDistinct : List String → Bool
  | [] => true
  | x :: xs => (!strMem x xs) && allDistinct xs

/-- Distinctness of all node ids below the root, the id-uniqueness
invariant the mock data satisfies (ids `root`, `project1`, `file1`, …). -/
def uniqueIds (fileSystem : JsNode) : Bool :=
  allDistinct ((allNodesN fileSystem).map JsNode.id)

example : languageFor "a.py" = "python" := by decide
example : languageFor "a.unknownext" = "plaintext" := by decide
example : languageFor "py" = "python" := by decide
example : languageFor "a.PY" = "python" := by decide
example : trimStr "  ls  " = "ls" := by decide

/-! ## The terminal session (`Terminal.jsx`)

State of the `Terminal` component: the input draft `command`, the
display `history` of command records, the `isRunning` flag, the
submitted-command text log `commandHistory` with its recall cursor
`historyIndex` (the JavaScript sentinel `-1` meaning "no cursor"), the
`workingDirectory`, and the error banner `error`. -/

/-- One entry of the terminal display history: `{ command, output,
type, working_directory }` with `type` one of the strings `running`,
`success`, `error`. -/
structure TermEntry where
  command : String
  output : String
  etype : String
  workingDir : String
deriving Repr, DecidableEq

/-- The backend's response to `terminalAPI.executeCommand`
(`response.command` in `executeCommand`). -/
structure CmdResult where
  command : String
  output : String
  exitCode : Int
  workingDirectory : String
deriving Repr, DecidableEq

/-- The `useState` pieces of the `Terminal` component. -/
structure TermState where
  command : String
  history : List TermEntry
  isRunning : Bool
  commandHistory : List String
  historyIndex : Int
  workingDirectory : String
  error : Option String
deriving Repr, DecidableEq

/-- The initial terminal state: empty draft, empty history, not
running, empty command log, cursor `-1`, working directory
`/tmp/codeeditor`, no error. -/
def initTermState : TermState where
  command := ""
  history := []
  isRunning := false
  commandHistory := []
  historyIndex := -1
  workingDirectory := "/tmp/codeeditor"
  error := none

/-- The synchronous prefix of `executeCommand(cmd)`: trim the command,
append it to `commandHistory`, reset `historyIndex` to `-1`, append a
`running` display entry carrying the current working directory, set
`isRunning`, clear the error banner.  (The early return for a
whitespace-only command is enforced by `handleSubmit`'s guard, which
already requires a non-empty trimmed draft.) -/
def startCommand (cmd : String) (s : TermState) : TermState :=
  let trimmedCmd := trimStr cmd
  { s with
    commandHistory := s.commandHistory ++ [trimmedCmd]
    historyIndex := -1
    history := s.history ++
      [{ command := trimmedCmd, output := "", etype := "running",
         workingDir := s.workingDirectory }]
    isRunning := true
    error := none }

/-- Outcome of a submission attempt, labelling the branches of
`handleSubmit`: the guarded call went through (`started`), or it was
rejected because a command is already in flight (`busy` — the guard
`!isRunning` failed and the input is `disabled={isRunning}`), or the
draft was empty after trimming (`empty`). -/
inductive SubmitResult where
  | started
  | busy
  | empty
deriving Repr, DecidableEq

/-- `handleSubmit` of `Terminal.jsx`: `if (command.trim() &&
!isRunning) { executeCommand(command); setCommand(''); }` — otherwise
nothing happens and the state is unchanged. -/
def handleSubmit (s : TermState) : TermState × SubmitResult :=
  if trimStr s.command ≠ "" ∧ s.isRunning = false then
    ({ startCommand s.command s with command := "" }, .started)
  else if s.isRunning then (s, .busy)
  else (s, .empty)

/-- Replace the last element of a list (`newHistory[newHistory.length -
1] = …` on a copied array); the empty list is left empty. -/
def replaceLast (l : List TermEntry) (e : TermEntry) : List TermEntry :=
  match l with
  | [] => []
  | _ :: _ => l.dropLast ++ [e]

/-- Resolution of the in-flight command in `executeCommand`: the last
display entry is overwritten with the result (type `success` when
`exit_code === 0`, else `error`), the working directory is updated only
on success, and the `finally` block clears `isRunning`. -/
def completeCommand (r : CmdResult) (s : TermState) : TermState :=
  { s with
    history := replaceLast s.history
      { command := r.command, output := r.output,
        etype := if r.exitCode = 0 then "success" else "error",
        workingDir := r.workingDirectory }
    workingDirectory := if r.exitCode = 0 then r.workingDirectory else s.workingDirectory
    isRunning := false }

/-- `handleKeyDown` of `Terminal.jsx` for the `ArrowUp` key: with a
non-empty command log, move the cursor to the newest entry when it was
`-1`, otherwise one step older clamped at `0`, and load that entry into
the draft. -/
def arrowUp (s : TermState) : TermState :=
  if s.commandHistory.length > 0 then
    let newIndex : Int :=
      if s.historyIndex = -1 then (s.commandHistory.length : Int) - 1
      else max 0 (s.historyIndex - 1)
    { s with historyIndex := newIndex,
             command := s.commandHistory.getD newIndex.toNat "" }
  else s

/-- `handleKeyDown` of `Terminal.jsx` for the `ArrowDown` key: with an
active cursor, move one step newer; past the newest entry the cursor is
reset to `-1` and the draft cleared. -/
def arrowDown (s : TermState) : TermState :=
  if s.historyIndex ≠ -1 then
    let newIndex : Int := s.historyIndex + 1
    if newIndex ≥ (s.commandHistory.length : Int) then
      { s with historyIndex := -1, command := "" }
    else
      { s with historyIndex := newIndex,
               command := s.commandHistory.getD newIndex.toNat "" }
  else s

/-- `clearTerminal` of `Terminal.jsx` (and the Clear button's
`setHistory([])`): the display history is emptied; no other state field
is touched. -/
def clearTerminal (s : TermState) : TermState :=
  { s with history := [] }

/-- User-visible terminal events.  `setDraft` is typing into the input
field, `submitKey` is the form submission, `completes` is the backend
response resolving, `keyUp`/`keyDown` are the arrow keys, `clearClick`
is the Clear button. -/
inductive TermEvent where
  | setDraft (c : String)
  | submitKey
  | completes (r : CmdResult)
  | keyUp
  | keyDown
  | clearClick
deriving Repr

/-- Apply one event to the terminal state.  The input field and the
Clear button carry `disabled={isRunning}`, so typing, arrow keys and
clearing are unavailable while a command runs; a completion only exists
for a command that is in flight. -/
def applyEvent (s : TermState) : TermEvent → TermState
  | .setDraft c => if s.isRunning then s else { s with command := c }
  | .submitKey => (handleSubmit s).1
  | .completes r => if s.isRunning then completeCommand r s else s
  | .keyUp => if s.isRunning then s else arrowUp s
  | .keyDown => if s.isRunning then s else arrowDown s
  | .clearClick => if s.isRunning then s else clearTerminal s

/-- Run a list of events from the initial terminal state. -/
def runEvents (evs : List TermEvent) : TermState :=
  evs.foldl applyEvent initTermState

/-- The number of display entries currently in the `running` state. -/
def runningCount (l : List TermEntry) : Nat :=
  (l.filter (fun e => e.etype = "running")).length

/-- The single-in-flight-command invariant: while running, the history
ends in the unique `running` entry; while idle, no entry is running. -/
def TermInv (s : TermState) : Prop :=
  (s.isRunning = false → runningCount s.history = 0)
    ∧ (s.isRunning = true →
        ∃ pre e, s.history = pre ++ [e] ∧ e.etype = "running" ∧ runningCount pre = 0)


/-! ## The editor session (`CodeEditor.jsx`) -/

/-- The save-relevant `useState` pieces of the `CodeEditor` component:
the in-memory `content`, the dirty flag `hasChanges`, the `isSaving`
flag and the `lastSaved` timestamp. -/
structure EditorState where
  content : String
  hasChanges : Bool
  isSaving : Bool
  lastSaved : Option String
deriving Repr, DecidableEq

/-- Outcome of a `saveFile` call: skipped by the guard, succeeded, or
the API call threw (the `catch` branch, which only logs the error). -/
inductive SaveOutcome where
  | skipped
  | saved
  | failed (msg : String)
deriving Repr, DecidableEq

/-- `saveFile` of `CodeEditor.jsx`.  `hasActive` is the truthiness of
`activeFile`, `result` the resolution of `fileAPI.updateFile`, `now`
the timestamp taken on success.  The guard returns unchanged when there
is no active file or no changes; on success `hasChanges` is cleared and
`lastSaved` set; on failure the `catch` branch runs (nothing but the
error log), then `finally` clears `isSaving` in both cases.  `content`
is never written by this function. -/
def saveFile (hasActive : Bool) (result : Except String Unit) (now : String)
    (s : EditorState) : EditorState × SaveOutcome :=
  if hasActive = false ∨ s.hasChanges = false then (s, .skipped)
  else
    match result with
    | .ok _ => ({ s with hasChanges := false, lastSaved := some now, isSaving := false }, .saved)
    | .error e => ({ s with isSaving := false }, .failed e)

/-! ### The debounced auto-save effect (`CodeEditor.jsx` lines 26-44)

The effect reacts to every content change by clearing the previous
timeout and scheduling `saveFile` 2000 ms later; a timeout whose
deadline no longer matches the currently scheduled one was cleared by
`clearTimeout` and does nothing when its tick arrives.  The machine
below is that scheduler: `timer` is the deadline of the live timeout,
`saves` the log of contents passed to `fileAPI.updateFile`. -/

/-- Auto-save scheduler state. -/
structure AutoSaveState where
  content : String
  hasChanges : Bool
  timer : Option Nat
  saves : List String
deriving Repr, DecidableEq

/-- Auto-save events: an edit at time `t` setting the content (the
`handleTextChange` path: content set, `hasChanges := true`, effect
re-runs and re-schedules the timeout at `t + 2000`), and the tick of a
timeout created for deadline `t` (it acts only if it is still the live
timeout; the `saveFile` it calls is guarded by `hasChanges`). -/
inductive ASEvent where
  | edit (t : Nat) (c : String)
  | tick (t : Nat)
deriving Repr

/-- Apply one auto-save event. -/
def applyAS (s : AutoSaveState) : ASEvent → AutoSaveState
  | .edit t c => { s with content := c, hasChanges := true, timer := some (t + 2000) }
  | .tick t =>
    match s.timer with
    | some d =>
      if d = t then
        if s.hasChanges then
          { s with saves := s.saves ++ [s.content], hasChanges := false, timer := none }
        else { s with timer := none }
      else s
    | none => s

/-- Run a list of auto-save events. -/
def runAS (s : AutoSaveState) (evs : List ASEvent) : AutoSaveState :=
  evs.foldl applyAS s

/-! ## PathIndex (modelled from the spec)

Modelled from the spec: the PathIndex component (`resolve` and
`computePath`, spec section 4.1) is implemented by the backend, which
is not part of the sources under `src/`; the frontend only consumes the
`path` strings it produces.  The model follows the spec's words:
`resolve(tree, path)` splits the path on the separator `/` and walks
child-name lookups from the root, failing when a segment is absent or a
non-final segment is not a Folder; `computePath(tree, nodeId)` walks
parent links to the root and joins names with the separator, returning
`/` for the root itself. -/

/-- A node of the PathIndex tree: id, name, kind (folder or file) and
ordered children. -/
inductive FNode where
  | node (id : Nat) (name : String) (isFolder : Bool) (children : List FNode) : FNode
deriving Repr

def FNode.id : FNode → Nat
  | .node i _ _ _ => i

def FNode.name : FNode → String
  | .node _ n _ _ => n

def FNode.isFolder : FNode → Bool
  | .node _ _ f _ => f

def FNode.children : FNode → List FNode
  | .node _ _ _ ch => ch

mutual

/-- Walk a segment list from a node: the empty list names the node
itself; otherwise the head segment is looked up among the children by
exact name match. -/
def resolveSegs : FNode → List String → Option Nat
  | .node i _ _ _, [] => some i
  | .node _ _ _ kids, seg :: rest => resolveIn kids seg rest

/-- Look the segment up among the children in order; a non-final match
must be a Folder to be entered. -/
def resolveIn : List FNode → String → List String → Option Nat
  | [], _, _ => none
  | c :: cs, seg, rest =>
    if FNode.name c = seg then
      if rest = [] then some (FNode.id c)
      else if FNode.isFolder c then resolveSegs c rest
      else none
    else resolveIn cs seg rest

end

mutual

/-- The name segments from a node down to the node with the given id
(`[]` when the node itself carries the id), or `none` when the id does
not occur below the node. -/
def pathSegs : FNode → Nat → Option (List String)
  | .node i _ _ kids, target =>
    if i = target then some [] else pathSegsIn kids target

/-- Search the children in order for the target id, prefixing the
matching child's name. -/
def pathSegsIn : List FNode → Nat → Option (List String)
  | [], _ => none
  | c :: cs, target =>
    match pathSegs c target with
    | some segs => some (FNode.name c :: segs)
    | none => pathSegsIn cs target

end

/-- A usable node name: non-empty and free of the separator
(spec section 3: `name`: non-empty string, must not contain the path
separator character). -/
def nameOk (s : String) : Bool :=
  (!s.data.isEmpty) && (!hasChar '/' s.data)

mutual

/-- Tree well-formedness from the spec's invariants: files have no
children, sibling names are distinct, child names are usable, and the
children are themselves well-formed. -/
def wfNode : FNode → Bool
  | .node _ _ f kids =>
    (f || kids.isEmpty) && allDistinct (namesOf kids) && wfList kids

def wfList : List FNode → Bool
  | [] => true
  | c :: cs => nameOk (FNode.name c) && wfNode c && wfList cs

def namesOf : List FNode → List String
  | [] => []
  | c :: cs => FNode.name c :: namesOf cs

end

/-- `computePath(tree, nodeId)`: the joined absolute path, `/` for the
root itself, `none` for an id that is not live in the tree. -/
def computePath (tree : FNode) (nodeId : Nat) : Option String :=
  (pathSegs tree nodeId).map
    (fun segs => ⟨'/' :: joinSegs '/' (segs.map String.data)⟩)

/-- Split a path string on `/` and drop empty segments (the leading
separator and, in non-canonical inputs, trailing or doubled
separators). -/
def splitPath (p : String) : List String :=
  ((splitOnChar '/' p.data).filter (fun l => !l.isEmpty)).map (fun l => ⟨l⟩)

/-- `resolve(tree, path)`: split on the separator and walk child-name
lookups from the root. -/
def resolve (tree : FNode) (p : String) : Option Nat :=
  resolveSegs tree (splitPath p)

/-! ## List helper lemmas -/

theorem strMem_eq_true_iff (s : String) (l : List String) : strMem s l = true ↔ s ∈ l := by
  induction l with
  | nil => simp [strMem]
  | cons x xs ih =>
    by_cases h : x = s
    · subst h; simp [strMem]
    · have h2 : ¬(s = x) := fun e => h e.symm
      simp [strMem, h, ih, h2]

theorem allDistinct_cons {x : String} {xs : List String}
    (h : allDistinct (x :: xs) = true) : strMem x xs = false ∧ allDistinct xs = true := by
  simpa [allDistinct] using h

theorem strMem_append (s : String) (xs ys : List String) :
    strMem s (xs ++ ys) = (strMem s xs || strMem s ys) := by
  induction xs with
  | nil => simp [strMem]
  | cons x xs ih => by_cases h : x = s <;> simp [strMem, h, ih]

theorem allDistinct_append (xs ys : List String)
    (h : allDistinct (xs ++ ys) = true) : allDistinct xs = true ∧ allDistinct ys = true := by
  induction xs with
  | nil => simpa [allDistinct] using h
  | cons x xs ih =>
    have h' : allDistinct (x :: (xs ++ ys)) = true := h
    have h1 := allDistinct_cons h'
    have hm : (strMem x xs || strMem x ys) = false := by
      rw [← strMem_append]; exact h1.1
    have ha : strMem x xs = false := by
      cases hx : strMem x xs
      · rfl
      · rw [hx] at hm; simp at hm
    have hxs := ih h1.2
    refine ⟨?_, hxs.2⟩
    simp only [allDistinct, Bool.and_eq_true, Bool.not_eq_true']
    exact ⟨ha, hxs.1⟩

/-! ## Occurrence preservation for `renameItem` -/

mutual

theorem rename_keeps_node (itemId newName : String) (n : JsNode) :
    ∀ t : JsNode, n ∈ allNodesN t → JsNode.id n = itemId →
      allDistinct ((allNodesN t).map JsNode.id) = true →
      renameEntry newName n ∈ allNodesN (renameTreeN itemId newName t)
  | .node i nm ty lg c ch, hmem, hid, hdis => by
    cases ch with
    | none =>
      simp only [allNodesN, List.mem_singleton] at hmem
      subst hmem
      simp only [JsNode.id] at hid
      simp [renameTreeN, hid, allNodesN, renameEntry]
    | some kids =>
      simp only [allNodesN, List.mem_cons] at hmem
      rcases hmem with hmem | hmem
      · subst hmem
        simp only [JsNode.id] at hid
        simp [renameTreeN, hid, allNodesN, renameEntry]
      · have hne : i ≠ itemId := by
          intro he
          have hdis2 := (allDistinct_cons (by simpa [allNodesN, JsNode.id] using hdis)).1
          have : JsNode.id n ∈ (allNodesL kids).map JsNode.id :=
            List.mem_map_of_mem JsNode.id hmem
          rw [hid, ← he] at this
          rw [(strMem_eq_true_iff _ _).mpr this] at hdis2
          exact Bool.true_eq_false.mp hdis2
        have hdisk : allDistinct ((allNodesL kids).map JsNode.id) = true :=
          (allDistinct_cons (by simpa [allNodesN, JsNode.id] using hdis)).2
        simp only [renameTreeN, if_neg hne, allNodesN, List.mem_cons]
        exact Or.inr (rename_keeps_list itemId newName n kids hmem hid hdisk)

theorem rename_keeps_list (itemId newName : String) (n : JsNode) :
    ∀ items : List JsNode, n ∈ allNodesL items → JsNode.id n = itemId →
      allDistinct ((allNodesL items).map JsNode.id) = true →
      renameEntry newName n ∈ allNodesL (renameTreeL itemId newName items)
  | [], hmem, _, _ => by simp [allNodesL] at hmem
  | item :: rest, hmem, hid, hdis => by
    simp only [allNodesL, List.mem_append] at hmem
    have hdis2 := allDistinct_append _ _ (by simpa [allNodesL, List.map_append] using hdis)
    simp only [renameTreeL, allNodesL, List.mem_append]
    rcases hmem with hmem | hmem
    · exact Or.inl (rename_keeps_node itemId newName n item hmem hid hdis2.1)
    · exact Or.inr (rename_keeps_list itemId newName n rest hmem hid hdis2.2)

end

/-! ## Occurrence preservation for `createFile` -/

mutual

theorem create_keeps_node (parentId ts : String) (n : JsNode) :
    ∀ t : JsNode, n ∈ allNodesN t → JsNode.id n = parentId →
      allDistinct ((allNodesN t).map JsNode.id) = true →
      createEntry ts n ∈ allNodesN (createTreeN parentId ts t)
  | .node i nm ty lg c ch, hmem, hid, hdis => by
    cases ch with
    | none =>
      simp only [allNodesN, List.mem_singleton] at hmem
      subst hmem
      simp only [JsNode.id] at hid
      simp [createTreeN, hid, allNodesN, createEntry]
    | some kids =>
      simp only [allNodesN, List.mem_cons] at hmem
      rcases hmem with hmem | hmem
      · subst hmem
        simp only [JsNode.id] at hid
        simp [createTreeN, hid, allNodesN, createEntry]
      · have hne : i ≠ parentId := by
          intro he
          have hdis2 := (allDistinct_cons (by simpa [allNodesN, JsNode.id] using hdis)).1
          have : JsNode.id n ∈ (allNodesL kids).map JsNode.id :=
            List.mem_map_of_mem JsNode.id hmem
          rw [hid, ← he] at this
          rw [(strMem_eq_true_iff _ _).mpr this] at hdis2
          exact Bool.true_eq_false.mp hdis2
        have hdisk : allDistinct ((allNodesL kids).map JsNode.id) = true :=
          (allDistinct_cons (by simpa [allNodesN, JsNode.id] using hdis)).2
        simp only [createTreeN, if_neg hne, allNodesN, List.mem_cons]
        exact Or.inr (create_keeps_list parentId ts n kids hmem hid hdisk)

theorem create_keeps_list (parentId ts : String) (n : JsNode) :
    ∀ items : List JsNode, n ∈ allNodesL items → JsNode.id n = parentId →
      allDistinct ((allNodesL items).map JsNode.id) = true →
      createEntry ts n ∈ allNodesL (createTreeL parentId ts items)
  | [], hmem, _, _ => by simp [allNodesL] at hmem
  | item :: rest, hmem, hid, hdis => by
    simp only [allNodesL, List.mem_append] at hmem
    have hdis2 := allDistinct_append _ _ (by simpa [allNodesL, List.map_append] using hdis)
    simp only [createTreeL, allNodesL, List.mem_append]
    rcases hmem with hmem | hmem
    · exact Or.inl (create_keeps_node parentId ts n item hmem hid hdis2.1)
    · exact Or.inr (create_keeps_list parentId ts n rest hmem hid hdis2.2)

end

/-! ## Demo trees used by witnesses and counterexamples -/

/-- A file node named `a.js` as the mock data builds file nodes. -/
def demoFile : JsNode :=
  .node "f1" "a.js" "file" (some "javascript") (some "") none

/-- A small explorer tree shaped like `mockFileSystem`: the root folder
with one project folder containing `a.js`. -/
def demoTree : JsNode :=
  .node "root" "Projects" "folder" none none
    (some [.node "p1" "my-web-app" "folder" none none (some [demoFile])])

/-- A tree whose folder `p1` already owns a child named `untitled.txt`,
the name `createFile` always gives a fresh node. -/
def dupTree : JsNode :=
  .node "root" "Projects" "folder" none none
    (some [.node "p1" "stuff" "folder" none none
      (some [.node "f1" "untitled.txt" "file" (some "plaintext") (some "") none])])

/-- C3: renaming a file recomputes its language from the new name's
extension through the fixed table: the renamed node appears in the
updated tree with the new name and with language `languageFor newName`;
in particular a rename to `a.py` yields `python` (from `javascript` for
an `a.js` file) and a rename to `a.unknownext` yields `plaintext`. -/
theorem renameItem_recomputes_language (fileSystem : JsNode) (itemId newName : String)
    (n : JsNode)
    (huniq : uniqueIds fileSystem = true)
    (hmem : n ∈ allNodesL (JsNode.childrenD fileSystem))
    (hid : JsNode.id n = itemId) (hty : JsNode.type n = "file") :
    renameEntry newName n ∈ allNodesL (JsNode.childrenD (renameItem itemId newName fileSystem))
      ∧ JsNode.name (renameEntry newName n) = newName
      ∧ JsNode.language (renameEntry newName n) = some (languageFor newName)
      ∧ languageFor "a.py" = "python"
      ∧ languageFor "a.js" = "javascript"
      ∧ languageFor "a.unknownext" = "plaintext" := by
  obtain ⟨i, nm, ty, lg, c, ch⟩ := fileSystem
  cases ch with
  | none => simp [JsNode.childrenD, JsNode.children, allNodesL] at hmem
  | some kids =>
    have hck : JsNode.childrenD (JsNode.node i nm ty lg c (some kids)) = kids := rfl
    rw [hck] at hmem
    have hdisk : allDistinct ((allNodesL kids).map JsNode.id) = true :=
      (allDistinct_cons (by simpa [uniqueIds, allNodesN, JsNode.id] using huniq)).2
    refine ⟨?_, ?_, ?_, by decide, by decide, by decide⟩
    · have hkeep := rename_keeps_list itemId newName n kids hmem hid hdisk
      simpa [renameItem, JsNode.childrenD, JsNode.children] using hkeep
    · obtain ⟨ni, nn, nty, nlg, nc, nch⟩ := n
      simp [renameEntry, JsNode.name]
    · obtain ⟨ni, nn, nty, nlg, nc, nch⟩ := n
      simp only [JsNode.type] at hty
      simp [renameEntry, JsNode.language, hty]

/-- Witness for C3 at a concrete tree: renaming `a.js` (id `f1`) to
`a.py` places the renamed file in the tree with language `python`, and
the unknown-extension rename yields `plaintext`. -/
theorem renameItem_recomputes_language_witness :
    renameEntry "a.py" demoFile ∈
        allNodesL (JsNode.childrenD (renameItem "f1" "a.py" demoTree))
      ∧ JsNode.language (renameEntry "a.py" demoFile) = some "python"
      ∧ languageFor "a.unknownext" = "plaintext" := by
  have h := renameItem_recomputes_language demoTree "f1" "a.py" demoFile
    (by decide)
    (by simp [demoTree, demoFile, JsNode.childrenD, JsNode.children, allNodesL, allNodesN])
    (by decide) (by decide)
  refine ⟨h.1, ?_, h.2.2.2.2.2⟩
  rw [h.2.2.1]
  decide

/-- Counterexample to C2 as stated: on a tree whose folder `p1` already
has a child named `untitled.txt`, `createFile` into `p1` neither fails
nor leaves the tree unchanged — afterwards two nodes of the tree carry
the name `untitled.txt`. -/
theorem createFile_duplicate_cex :
    createFile "p1" "7" dupTree ≠ dupTree
      ∧ ((allNodesN (createFile "p1" "7" dupTree)).filter
          (fun m => JsNode.name m = "untitled.txt")).length = 2 := by
  constructor
  · intro h
    exact absurd (congrArg (fun t => (allNodesN t).length) h) (by decide)
  · decide

/-- C2 as amended: the explorer's `createFile` has no name check at
all — it appends the fresh `untitled.txt` node to the designated
parent's children unconditionally, whether or not a sibling of that
name exists, and the root-level create likewise appends to the root's
children unconditionally. -/
theorem createFile_appends_unconditionally (fileSystem : JsNode) (ts : String) (n : JsNode)
    (hroot : JsNode.id fileSystem = "root") (huniq : uniqueIds fileSystem = true)
    (hmem : n ∈ allNodesL (JsNode.childrenD fileSystem)) :
    createEntry ts n ∈ allNodesL (JsNode.childrenD (createFile (JsNode.id n) ts fileSystem))
      ∧ JsNode.childrenD (createEntry ts n) = JsNode.childrenD n ++ [newFileNode ts]
      ∧ JsNode.name (newFileNode ts) = "untitled.txt"
      ∧ JsNode.childrenD (createFile "root" ts fileSystem)
          = JsNode.childrenD fileSystem ++ [newFileNode ts] := by
  obtain ⟨i, nm, ty, lg, c, ch⟩ := fileSystem
  cases ch with
  | none => simp [JsNode.childrenD, JsNode.children, allNodesL] at hmem
  | some kids =>
    have hck : JsNode.childrenD (JsNode.node i nm ty lg c (some kids)) = kids := rfl
    rw [hck] at hmem
    simp only [JsNode.id] at hroot
    subst hroot
    have hdisc := allDistinct_cons (by simpa [uniqueIds, allNodesN, JsNode.id] using huniq)
    have hne : JsNode.id n ≠ "root" := by
      intro he
      have : JsNode.id n ∈ (allNodesL kids).map JsNode.id :=
        List.mem_map_of_mem JsNode.id hmem
      rw [he] at this
      rw [(strMem_eq_true_iff _ _).mpr this] at hdisc
      exact Bool.true_eq_false.mp hdisc.1
    refine ⟨?_, ?_, rfl, ?_⟩
    · have hkeep := create_keeps_list (JsNode.id n) ts n kids hmem rfl hdisc.2
      simpa [createFile, if_neg hne, JsNode.childrenD, JsNode.children] using hkeep
    · obtain ⟨ni, nn, nty, nlg, nc, nch⟩ := n
      simp [createEntry, JsNode.childrenD, JsNode.children]
    · simp [createFile, JsNode.childrenD, JsNode.children]

/-- Witness for amended C2: creating inside folder `p1`, which already
owns an `untitled.txt` child, appends a second `untitled.txt`. -/
theorem createFile_appends_unconditionally_witness :
    createEntry "7" (.node "p1" "stuff" "folder" none none
        (some [.node "f1" "untitled.txt" "file" (some "plaintext") (some "") none]))
      ∈ allNodesL (JsNode.childrenD (createFile "p1" "7" dupTree)) := by
  have h := createFile_appends_unconditionally dupTree "7"
    (.node "p1" "stuff" "folder" none none
      (some [.node "f1" "untitled.txt" "file" (some "plaintext") (some "") none]))
    (by decide) (by decide)
    (by simp [dupTree, JsNode.childrenD, JsNode.children, allNodesL, allNodesN])
  simpa [JsNode.id] using h.1

/-! ## Dot-less names (C10) -/

theorem splitOnChar_no_sep (sep : Char) (l : List Char) (h : hasChar sep l = false) :
    splitOnChar sep l = [l] := by
  induction l with
  | nil => rfl
  | cons c cs ih =>
    simp only [hasChar] at h
    by_cases hc : c = sep
    · rw [if_pos hc] at h; exact absurd h (by simp)
    · rw [if_neg hc] at h
      simp [splitOnChar, hc, ih h]

/-- C10: for a file renamed to a name containing no dot, the whole name
is the extension `split('.').pop()` produces, so the language is looked
up from the lower-cased full name: renaming to exactly `py` gives
`python`, a dot-less name outside the table gives `plaintext`. -/
theorem rename_dotless_language (n : JsNode) (newName : String)
    (hty : JsNode.type n = "file") (hnodot : hasChar '.' newName.data = false) :
    JsNode.language (renameEntry newName n)
        = some ((langMap (lowerStr newName)).getD "plaintext")
      ∧ JsNode.language (renameEntry "py" n) = some "python"
      ∧ JsNode.language (renameEntry "readme" n) = some "plaintext" := by
  obtain ⟨ni, nn, nty, nlg, nc, nch⟩ := n
  simp only [JsNode.type] at hty
  have hext : extOf newName = lowerStr newName := by
    obtain ⟨cs⟩ := newName
    simp [extOf, splitOnChar_no_sep '.' cs hnodot]
  refine ⟨?_, ?_, ?_⟩
  · simp [renameEntry, JsNode.language, hty, languageFor, hext]
  · simp [renameEntry, JsNode.language, hty]; decide
  · simp [renameEntry, JsNode.language, hty]; decide

/-- Witness for C10: the concrete file `a.js` renamed to the dot-less
names `config` and `py`. -/
theorem rename_dotless_language_witness :
    JsNode.language (renameEntry "config" demoFile) = some "plaintext"
      ∧ JsNode.language (renameEntry "py" demoFile) = some "python" := by
  have h := rename_dotless_language demoFile "config" (by decide) (by decide)
  refine ⟨?_, h.2.1⟩
  rw [h.1]
  decide

/-! ## Saving (C7) -/

/-- C7: a failed save leaves the dirty flag set, the in-memory content
and the last-saved timestamp exactly as before the attempt, and reports
the failure (never a success). -/
theorem saveFile_failure_keeps_edit (s : EditorState) (e now : String)
    (hdirty : s.hasChanges = true) :
    (saveFile true (.error e) now s).1.content = s.content
      ∧ (saveFile true (.error e) now s).1.hasChanges = true
      ∧ (saveFile true (.error e) now s).1.lastSaved = s.lastSaved
      ∧ (saveFile true (.error e) now s).2 = .failed e := by
  simp [saveFile, hdirty]

/-- Witness for C7 on a concrete dirty editor state. -/
theorem saveFile_failure_keeps_edit_witness :
    (saveFile true (.error "disk full") "t1"
        { content := "draft", hasChanges := true, isSaving := true,
          lastSaved := some "t0" }).1.content = "draft"
      ∧ (saveFile true (.error "disk full") "t1"
          { content := "draft", hasChanges := true, isSaving := true,
            lastSaved := some "t0" }).1.hasChanges = true := by
  have h := saveFile_failure_keeps_edit
    { content := "draft", hasChanges := true, isSaving := true, lastSaved := some "t0" }
    "disk full" "t1" (by decide)
  exact ⟨h.1, h.2.1⟩

/-! ## Auto-save debouncing (C8) -/

/-- C8: an edit followed by a quiet period up to its 2000 ms deadline
saves exactly once, with the edited content; two edits inside one
debounce window collapse to exactly one save carrying the latest
content — the first timeout was superseded and does nothing. -/
theorem autosave_debounce (s : AutoSaveState) (t1 t2 : Nat) (c1 c2 : String)
    (horder : t1 < t2) (hwin : t2 < t1 + 2000) :
    (runAS s [.edit t1 c1, .tick (t1 + 2000)]).saves = s.saves ++ [c1]
      ∧ (runAS s [.edit t1 c1, .edit t2 c2, .tick (t1 + 2000), .tick (t2 + 2000)]).saves
          = s.saves ++ [c2]
      ∧ (runAS s [.edit t1 c1, .edit t2 c2, .tick (t1 + 2000),
            .tick (t2 + 2000)]).hasChanges = false := by
  have hne : ¬(t2 + 2000 = t1 + 2000) := by omega
  refine ⟨?_, ?_, ?_⟩ <;> simp [runAS, applyAS, hne]

/-- Witness for C8: two edits 500 ms apart produce one save of the
second content. -/
theorem autosave_debounce_witness :
    (runAS { content := "", hasChanges := false, timer := none, saves := [] }
        [.edit 0 "v1", .edit 500 "v2", .tick 2000, .tick 2500]).saves = [] ++ ["v2"] :=
  (autosave_debounce { content := "", hasChanges := false, timer := none, saves := [] }
    0 500 "v1" "v2" (by decide) (by decide)).2.1

/-! ## Clearing the terminal (C6) -/

/-- The backend response to a successful `ls`. -/
def okResult : CmdResult :=
  { command := "ls", output := "a.js", exitCode := 0, workingDirectory := "/tmp/codeeditor" }

/-- Events leading to a state whose recall cursor is active: submit and
complete one command, then press ArrowUp once. -/
def recallEvs : List TermEvent :=
  [.setDraft "ls", .submitKey, .completes okResult, .keyUp]

/-- Counterexample to C6 as stated: clearing does not reset the recall
cursor to none — after one ArrowUp the cursor sits at `0` and survives
`clearTerminal` unchanged, instead of returning to `-1`. -/
theorem clearTerminal_cursor_cex :
    (clearTerminal (runEvents recallEvs)).historyIndex = 0
      ∧ (clearTerminal (runEvents recallEvs)).historyIndex ≠ -1
      ∧ (clearTerminal (runEvents recallEvs)).history = [] := by
  refine ⟨by decide, by decide, by decide⟩

/-- C6 as amended: `clearTerminal` empties the display history and
changes nothing else — the working directory is untouched, and so are
the recall cursor, the command log and the input draft (the cursor is
not reset to none). -/
theorem clearTerminal_frame (s : TermState) :
    (clearTerminal s).history = []
      ∧ (clearTerminal s).workingDirectory = s.workingDirectory
      ∧ (clearTerminal s).historyIndex = s.historyIndex
      ∧ (clearTerminal s).commandHistory = s.commandHistory
      ∧ (clearTerminal s).command = s.command := by
  simp [clearTerminal]

/-! ## History growth (C4) -/

theorem replaceLast_append (l : List TermEntry) (e f : TermEntry) :
    replaceLast (l ++ [e]) f = l ++ [f] := by
  cases h : l ++ [e] with
  | nil => exact absurd h (by simp)
  | cons x xs =>
    rw [replaceLast, ← h]
    rw [List.dropLast_concat]

/-- The event block of one full command: type `ls`, submit it, and let
the backend response arrive. -/
def submitCompleteEvents : Nat → List TermEvent
  | 0 => []
  | k + 1 => submitCompleteEvents k ++ [.setDraft "ls", .submitKey, .completes okResult]

theorem submitComplete_state (k : Nat) :
    (runEvents (submitCompleteEvents k)).isRunning = false
      ∧ ((runEvents (submitCompleteEvents k)).history).length = k := by
  induction k with
  | zero => exact ⟨rfl, rfl⟩
  | succ k ih =>
    have hfold : runEvents (submitCompleteEvents (k + 1))
        = List.foldl applyEvent (runEvents (submitCompleteEvents k))
            [.setDraft "ls", .submitKey, .completes okResult] := by
      rw [runEvents, submitCompleteEvents, List.foldl_append]
      rfl
    set s := runEvents (submitCompleteEvents k) with hs
    have h1 : applyEvent s (.setDraft "ls") = { s with command := "ls" } := by
      simp [applyEvent, ih.1]
    have htrim : ¬ trimStr "ls" = "" := by decide
    have h2 : applyEvent { s with command := "ls" } TermEvent.submitKey
        = { startCommand "ls" { s with command := "ls" } with command := "" } := by
      simp [applyEvent, handleSubmit, ih.1, htrim]
    rw [hfold]
    simp only [List.foldl_cons, List.foldl_nil, h1, h2]
    simp [applyEvent, startCommand, completeCommand, replaceLast_append, ih.2]

/-- C4 as amended: the terminal history is unbounded — there is no cap
and no eviction; submitting and completing k commands from the initial
state leaves exactly k records in the history, for every k. -/
theorem terminal_history_unbounded (k : Nat) :
    ((runEvents (submitCompleteEvents k)).history).length = k :=
  (submitComplete_state k).2

/-- Counterexample to C4 as stated: with the spec's example cap of 50,
submitting and completing 51 commands leaves 51 records in the history,
not 50 — the oldest record is not evicted. -/
theorem terminal_history_cap_cex :
    ((runEvents (submitCompleteEvents 51)).history).length ≠ 50 := by
  rw [(submitComplete_state 51).2]
  decide

/-! ## At most one running command (C1) -/

theorem runningCount_append (a b : List TermEntry) :
    runningCount (a ++ b) = runningCount a + runningCount b := by
  simp [runningCount, List.filter_append]

theorem TermInv_init : TermInv initTermState := by
  constructor
  · intro _; rfl
  · intro h; exact absurd h (by decide)

theorem TermInv_of_eq {s t : TermState} (hinv : TermInv s)
    (hh : t.history = s.history) (hr : t.isRunning = s.isRunning) : TermInv t := by
  unfold TermInv at *
  rw [hh, hr]
  exact hinv

theorem arrowUp_frame (s : TermState) :
    (arrowUp s).history = s.history ∧ (arrowUp s).isRunning = s.isRunning
      ∧ (arrowUp s).commandHistory = s.commandHistory := by
  unfold arrowUp
  split <;> simp

theorem arrowDown_frame (s : TermState) :
    (arrowDown s).history = s.history ∧ (arrowDown s).isRunning = s.isRunning
      ∧ (arrowDown s).commandHistory = s.commandHistory := by
  unfold arrowDown
  split
  · by_cases h2 : (s.historyIndex + 1 : Int) ≥ (s.commandHistory.length : Int)
    · simp [h2]
    · simp [h2]
  · simp

theorem handleSubmit_stuck (s : TermState)
    (hcond : ¬(trimStr s.command ≠ "" ∧ s.isRunning = false)) :
    (handleSubmit s).1 = s := by
  rw [handleSubmit, if_neg hcond]
  split <;> rfl

theorem TermInv_apply {s : TermState} (hinv : TermInv s) :
    ∀ ev : TermEvent, TermInv (applyEvent s ev)
  | .setDraft c => by
    cases hr : s.isRunning
    · have h1 : applyEvent s (.setDraft c) = { s with command := c } := by
        simp [applyEvent, hr]
      rw [h1]
      exact TermInv_of_eq hinv rfl rfl
    · have h1 : applyEvent s (.setDraft c) = s := by simp [applyEvent, hr]
      rw [h1]
      exact hinv
  | .submitKey => by
    by_cases hcond : trimStr s.command ≠ "" ∧ s.isRunning = false
    · have h1 : applyEvent s .submitKey = { startCommand s.command s with command := "" } := by
        simp only [applyEvent]
        rw [handleSubmit, if_pos hcond]
      rw [h1]
      constructor
      · intro h
        simp [startCommand] at h
      · intro _
        exact ⟨s.history,
          { command := trimStr s.command, output := "", etype := "running",
            workingDir := s.workingDirectory }, rfl, rfl, hinv.1 hcond.2⟩
    · simp only [applyEvent, handleSubmit_stuck s hcond]
      exact hinv
  | .completes r => by
    cases hr : s.isRunning
    · simp only [applyEvent, hr, if_neg (by decide : ¬false = true)]
      exact hinv
    · simp only [applyEvent, hr, if_pos rfl]
      obtain ⟨pre, e, hh, _, hpre⟩ := hinv.2 hr
      have hnr : runningCount
          [{ command := r.command, output := r.output,
             etype := if r.exitCode = 0 then "success" else "error",
             workingDir := r.workingDirectory }] = 0 := by
        by_cases hz : r.exitCode = 0 <;> simp [runningCount, hz]
      constructor
      · intro _
        show runningCount (replaceLast s.history _) = 0
        rw [hh, replaceLast_append, runningCount_append, hpre, hnr]
      · intro h; exact absurd h (by simp [completeCommand])
  | .keyUp => by
    cases hr : s.isRunning
    · simp only [applyEvent, hr, if_neg (by decide : ¬false = true)]
      exact TermInv_of_eq hinv (arrowUp_frame s).1 (arrowUp_frame s).2.1
    · simpa only [applyEvent, hr, if_pos rfl] using hinv
  | .keyDown => by
    cases hr : s.isRunning
    · simp only [applyEvent, hr, if_neg (by decide : ¬false = true)]
      exact TermInv_of_eq hinv (arrowDown_frame s).1 (arrowDown_frame s).2.1
    · simpa only [applyEvent, hr, if_pos rfl] using hinv
  | .clearClick => by
    cases hr : s.isRunning
    · simp only [applyEvent, hr, if_neg (by decide : ¬false = true)]
      constructor
      · intro _; rfl
      · intro h; exact absurd h (by simp [clearTerminal, hr])
    · simpa only [applyEvent, hr, if_pos rfl] using hinv

theorem TermInv_foldl (evs : List TermEvent) :
    ∀ s, TermInv s → TermInv (List.foldl applyEvent s evs) := by
  induction evs with
  | nil => intro s hs; simpa using hs
  | cons e rest ih => intro s hs; exact ih _ (TermInv_apply hs e)

theorem TermInv_runEvents (evs : List TermEvent) : TermInv (runEvents evs) :=
  TermInv_foldl evs initTermState TermInv_init

theorem runningCount_le_one {s : TermState} (hinv : TermInv s) :
    runningCount s.history ≤ 1 := by
  cases hr : s.isRunning
  · rw [hinv.1 hr]
    exact Nat.zero_le 1
  · obtain ⟨pre, e, hh, _, hpre⟩ := hinv.2 hr
    rw [hh, runningCount_append, hpre]
    simpa [runningCount] using List.length_filter_le (fun x => x.etype = "running") [e]

/-- C1: along every event trace at most one command record is in the
running state; a submission while a command runs is rejected as busy
with the session state unchanged; and once the running command
completes, submitting a non-blank draft succeeds again. -/
theorem terminal_single_running (evs : List TermEvent) (s : TermState) (r : CmdResult)
    (c : String) (hrun : s.isRunning = true) (hc : trimStr c ≠ "") :
    runningCount (runEvents evs).history ≤ 1
      ∧ handleSubmit s = (s, SubmitResult.busy)
      ∧ (completeCommand r s).isRunning = false
      ∧ (handleSubmit { completeCommand r s with command := c }).2 = SubmitResult.started := by
  refine ⟨runningCount_le_one (TermInv_runEvents evs), ?_, rfl, ?_⟩
  · rw [handleSubmit, if_neg (by simp [hrun]), if_pos hrun]
  · rw [handleSubmit, if_pos ⟨hc, rfl⟩]

/-- The events that put the terminal in a running state: type `ls` and
submit it, with no completion yet. -/
def runningDemoEvs : List TermEvent := [.setDraft "ls", .submitKey]

/-- Witness for C1: after one pending submission the history holds at
most one running record, and a second submission is rejected as busy. -/
theorem terminal_single_running_witness :
    runningCount (runEvents runningDemoEvs).history ≤ 1
      ∧ handleSubmit (runEvents runningDemoEvs) = (runEvents runningDemoEvs, SubmitResult.busy) := by
  have h := terminal_single_running runningDemoEvs (runEvents runningDemoEvs) okResult "pwd"
    (by decide) (by decide)
  exact ⟨h.1, h.2.1⟩

/-! ## Recall navigation (C5) -/

theorem arrowUp_first (s : TermState) (hidx : s.historyIndex = -1)
    (hlen : 0 < s.commandHistory.length) :
    (arrowUp s).historyIndex = ((s.commandHistory.length - 1 : Nat) : Int) := by
  simp [arrowUp, hlen, hidx]

theorem arrowUp_from_index (j : Nat) :
    ∀ (s : TermState) (i : Nat), s.historyIndex = (i : Int) →
      i < s.commandHistory.length →
      (arrowUp^[j] s).historyIndex = ((i - j : Nat) : Int)
        ∧ (arrowUp^[j] s).commandHistory = s.commandHistory := by
  induction j with
  | zero => intro s i h hi; simpa using h
  | succ j ih =>
    intro s i h hi
    have hlen : 0 < s.commandHistory.length := Nat.lt_of_le_of_lt (Nat.zero_le i) hi
    have hne : ¬((i : Int) = -1) := by omega
    have hstep : (arrowUp s).historyIndex = ((i - 1 : Nat) : Int) := by
      simp [arrowUp, hlen, h, hne]
      omega
    have hrec := ih (arrowUp s) (i - 1) hstep
      (by rw [(arrowUp_frame s).2.2]; omega)
    rw [Function.iterate_succ_apply]
    refine ⟨?_, hrec.2.trans (arrowUp_frame s).2.2⟩
    rw [hrec.1]
    omega

theorem arrowDown_idle (s : TermState) (h : s.historyIndex = -1) : arrowDown s = s := by
  simp [arrowDown, h]

theorem arrowDown_exits (m : Nat) :
    ∀ (s : TermState) (i : Nat), s.historyIndex = (i : Int) →
      i < s.commandHistory.length → s.commandHistory.length - i ≤ m →
      (arrowDown^[m] s).historyIndex = -1 ∧ (arrowDown^[m] s).command = "" := by
  induction m with
  | zero => intro s i h hi hm; omega
  | succ m ih =>
    intro s i h hi hm
    rw [Function.iterate_succ_apply]
    have hne : ¬((i : Int) = -1) := by omega
    by_cases hend : s.commandHistory.length ≤ i + 1
    · have hge : (s.commandHistory.length : Int) ≤ (i : Int) + 1 := by exact_mod_cast hend
      have hstep : (arrowDown s).historyIndex = -1 ∧ (arrowDown s).command = "" := by
        constructor <;> simp [arrowDown, h, hne, hge]
      rw [Function.iterate_fixed (arrowDown_idle (arrowDown s) hstep.1) m]
      exact hstep
    · push_neg at hend
      have hlt : ¬((s.commandHistory.length : Int) ≤ (i : Int) + 1) := by
        exact_mod_cast not_le.mpr hend
      have hstep : (arrowDown s).historyIndex = ((i + 1 : Nat) : Int) := by
        simp [arrowDown, h, hne, hlt]
      exact ih (arrowDown s) (i + 1) hstep
        (by rw [(arrowDown_frame s).2.2]; omega)
        (by rw [(arrowDown_frame s).2.2]; omega)

/-- C5: from the empty-draft, no-cursor state, k ArrowUps followed by k
ArrowDowns always return to the empty draft with the cursor cleared;
ArrowUp clamps at the oldest entry (index 0 stays 0), and ArrowDown
past the newest entry clears the cursor and empties the draft. -/
theorem recall_round_trip (s : TermState) (k : Nat)
    (hcur : s.historyIndex = -1) (hdraft : s.command = "") :
    ((arrowDown^[k] (arrowUp^[k] s)).historyIndex = -1
        ∧ (arrowDown^[k] (arrowUp^[k] s)).command = "")
      ∧ (∀ t : TermState, t.historyIndex = 0 → 0 < t.commandHistory.length →
           (arrowUp t).historyIndex = 0)
      ∧ (∀ t : TermState, 0 < t.commandHistory.length →
           t.historyIndex = (t.commandHistory.length : Int) - 1 →
           (arrowDown t).historyIndex = -1 ∧ (arrowDown t).command = "") := by
  refine ⟨?_, ?_, ?_⟩
  · cases k with
    | zero => exact ⟨hcur, hdraft⟩
    | succ j =>
      rcases Nat.eq_zero_or_pos s.commandHistory.length with hlen | hlen
      · have hupfix : arrowUp s = s := by simp [arrowUp, hlen]
        rw [Function.iterate_fixed hupfix (j + 1),
          Function.iterate_fixed (arrowDown_idle s hcur) (j + 1)]
        exact ⟨hcur, hdraft⟩
      · have h1 := arrowUp_first s hcur hlen
        have hrec := arrowUp_from_index j (arrowUp s) (s.commandHistory.length - 1) h1
          (by rw [(arrowUp_frame s).2.2]; omega)
        rw [Function.iterate_succ_apply]
        refine arrowDown_exits (j + 1) (arrowUp^[j] (arrowUp s))
          (s.commandHistory.length - 1 - j) hrec.1 ?_ ?_
        · rw [hrec.2, (arrowUp_frame s).2.2]; omega
        · rw [hrec.2, (arrowUp_frame s).2.2]; omega
  · intro t ht0 htlen
    simp [arrowUp, htlen, ht0]
  · intro t htlen hidx
    have hne : ¬(t.historyIndex = -1) := by rw [hidx]; omega
    have hge : (t.commandHistory.length : Int) ≤ t.historyIndex + 1 := by rw [hidx]; omega
    constructor <;> simp [arrowDown, hne, hge]

/-- A terminal state with two logged commands and no active recall. -/
def recallDemo : TermState := { initTermState with commandHistory := ["ls", "pwd"] }

/-- Witness for C5: three ArrowUps then three ArrowDowns from the empty
draft return to the empty draft with the cursor cleared. -/
theorem recall_round_trip_witness :
    (arrowDown^[3] (arrowUp^[3] recallDemo)).historyIndex = -1
      ∧ (arrowDown^[3] (arrowUp^[3] recallDemo)).command = "" :=
  (recall_round_trip recallDemo 3 (by decide) (by decide)).1

/-! ## PathIndex round trip, segment level (C9) -/

theorem wfNode_parts {i : Nat} {nm : String} {f : Bool} {kids : List FNode}
    (h : wfNode (.node i nm f kids) = true) :
    (f || kids.isEmpty) = true ∧ allDistinct (namesOf kids) = true ∧ wfList kids = true := by
  have h' := h
  rw [wfNode] at h'
  simp only [Bool.and_eq_true] at h'
  exact ⟨h'.1.1, h'.1.2, h'.2⟩

theorem wfList_parts {c : FNode} {cs : List FNode} (h : wfList (c :: cs) = true) :
    nameOk (FNode.name c) = true ∧ wfNode c = true ∧ wfList cs = true := by
  have h' := h
  rw [wfList] at h'
  simp only [Bool.and_eq_true] at h'
  exact ⟨h'.1.1, h'.1.2, h'.2⟩

theorem pathSegsIn_ne_nil (kids : List FNode) (target : Nat) :
    pathSegsIn kids target ≠ some [] := by
  induction kids with
  | nil => simp [pathSegsIn]
  | cons c cs ih =>
    simp only [pathSegsIn]
    cases hc : pathSegs c target
    · simpa [hc] using ih
    · simp [hc]

theorem pathSegsIn_head_name (kids : List FNode) (target : Nat) (s : String) (rest : List String)
    (h : pathSegsIn kids target = some (s :: rest)) : strMem s (namesOf kids) = true := by
  induction kids with
  | nil => simp [pathSegsIn] at h
  | cons c cs ih =>
    simp only [pathSegsIn] at h
    cases hc : pathSegs c target with
    | some segs =>
      rw [hc] at h
      simp only [Option.some.injEq, List.cons.injEq] at h
      simp [namesOf, strMem, h.1]
    | none =>
      rw [hc] at h
      have hrec := ih h
      simp only [namesOf, strMem]
      by_cases he : FNode.name c = s
      · simp [he]
      · simp [he, hrec]

mutual

theorem roundtrip_node : ∀ (t : FNode) (target : Nat) (segs : List String),
    wfNode t = true → pathSegs t target = some segs → resolveSegs t segs = some target
  | .node i nm f kids, target, segs, hwf, hpath => by
    by_cases hit : i = target
    · rw [pathSegs, if_pos hit] at hpath
      injection hpath with h
      subst h
      simp [resolveSegs, hit]
    · rw [pathSegs, if_neg hit] at hpath
      have hparts := wfNode_parts hwf
      obtain ⟨s, rest, hseg, hres⟩ :=
        roundtrip_list kids target segs hparts.2.2 hparts.2.1 hpath
      subst hseg
      rw [resolveSegs]
      exact hres

theorem roundtrip_list : ∀ (kids : List FNode) (target : Nat) (segs : List String),
    wfList kids = true → allDistinct (namesOf kids) = true →
    pathSegsIn kids target = some segs →
    ∃ s rest, segs = s :: rest ∧ resolveIn kids s rest = some target
  | [], target, segs, _, _, hpath => by simp [pathSegsIn] at hpath
  | c :: cs, target, segs, hwf, hdis, hpath => by
    have hwfc := wfList_parts hwf
    simp only [pathSegsIn] at hpath
    cases hc : pathSegs c target with
    | some segs0 =>
      rw [hc] at hpath
      simp only [Option.some.injEq] at hpath
      refine ⟨FNode.name c, segs0, hpath.symm, ?_⟩
      rw [resolveIn, if_pos rfl]
      cases hs0 : segs0 with
      | nil =>
        rw [if_pos rfl]
        obtain ⟨ci, cn, cf, ck⟩ := c
        rw [pathSegs] at hc
        by_cases hci : ci = target
        · simp [FNode.id, hci]
        · rw [if_neg hci, hs0] at hc
          exact absurd hc (pathSegsIn_ne_nil ck target)
      | cons s1 rest1 =>
        rw [if_neg (by simp)]
        have hfold : FNode.isFolder c = true := by
          obtain ⟨ci, cn, cf, ck⟩ := c
          rw [pathSegs] at hc
          by_cases hci : ci = target
          · rw [if_pos hci, hs0] at hc
            simp at hc
          · rw [if_neg hci, hs0] at hc
            cases ck with
            | nil => simp [pathSegsIn] at hc
            | cons k ks =>
              have hp := wfNode_parts hwfc.2.1
              have h1 := hp.1
              simp only [List.isEmpty_cons, Bool.or_false] at h1
              simpa [FNode.isFolder] using h1
        rw [if_pos hfold, ← hs0]
        exact roundtrip_node c target segs0 hwfc.2.1 hc
    | none =>
      rw [hc] at hpath
      have hdis2 := allDistinct_cons (show allDistinct (FNode.name c :: namesOf cs) = true by
        simpa [namesOf] using hdis)
      obtain ⟨s, rest, hseg, hres⟩ :=
        roundtrip_list cs target segs hwfc.2.2 hdis2.2 hpath
      refine ⟨s, rest, hseg, ?_⟩
      have hne : FNode.name c ≠ s := by
        intro he
        have hmem := pathSegsIn_head_name cs target s rest (hseg ▸ hpath)
        rw [← he] at hmem
        rw [hmem] at hdis2
        exact Bool.true_eq_false.mp hdis2.1
      rw [resolveIn, if_neg hne]
      exact hres

end

/-! ## PathIndex round trip, string level (C9) -/

mutual

theorem pathSegs_names_ok : ∀ (t : FNode) (target : Nat) (segs : List String),
    wfNode t = true → pathSegs t target = some segs →
    ∀ x ∈ segs, nameOk x = true
  | .node i nm f kids, target, segs, hwf, hpath => by
    by_cases hit : i = target
    · rw [pathSegs, if_pos hit] at hpath
      injection hpath with h
      subst h
      intro x hx
      simp at hx
    · rw [pathSegs, if_neg hit] at hpath
      exact pathSegsIn_names_ok kids target segs (wfNode_parts hwf).2.2 hpath

theorem pathSegsIn_names_ok : ∀ (kids : List FNode) (target : Nat) (segs : List String),
    wfList kids = true → pathSegsIn kids target = some segs →
    ∀ x ∈ segs, nameOk x = true
  | [], _, _, _, hpath => by simp [pathSegsIn] at hpath
  | c :: cs, target, segs, hwf, hpath => by
    have hwfc := wfList_parts hwf
    simp only [pathSegsIn] at hpath
    cases hc : pathSegs c target with
    | some segs0 =>
      rw [hc] at hpath
      simp only [Option.some.injEq] at hpath
      subst hpath
      intro x hx
      rcases List.mem_cons.mp hx with hx | hx
      · rw [hx]; exact hwfc.1
      · exact pathSegs_names_ok c target segs0 hwfc.2.1 hc x hx
    | none =>
      rw [hc] at hpath
      exact pathSegsIn_names_ok cs target segs hwfc.2.2 hpath

end

theorem splitOnChar_sep_prefix (sep : Char) :
    ∀ (s l g : List Char) (gs : List (List Char)),
      splitOnChar sep l = g :: gs → hasChar sep s = false →
      splitOnChar sep (s ++ l) = (s ++ g) :: gs := by
  intro s
  induction s with
  | nil => intro l g gs h _; simpa using h
  | cons c cs ih =>
    intro l g gs h hns
    simp only [hasChar] at hns
    by_cases hc : c = sep
    · rw [if_pos hc] at hns
      exact absurd hns (by simp)
    · rw [if_neg hc] at hns
      have hrec := ih l g gs h hns
      rw [List.cons_append, splitOnChar, if_neg hc, hrec]
      rfl

theorem splitOnChar_joinSegs (sep : Char) :
    ∀ (segs : List (List Char)), segs ≠ [] →
      (∀ x ∈ segs, x ≠ [] ∧ hasChar sep x = false) →
      splitOnChar sep (joinSegs sep segs) = segs
  | [], h, _ => absurd rfl h
  | [s], _, hv => by
    have hx := hv s (by simp)
    have hj : joinSegs sep [s] = s := rfl
    rw [hj]
    have h0 : splitOnChar sep ([] : List Char) = [] :: [] := rfl
    simpa using splitOnChar_sep_prefix sep s [] [] [] h0 hx.2
  | s :: s2 :: rest, _, hv => by
    have hx := hv s (by simp)
    have hrec := splitOnChar_joinSegs sep (s2 :: rest) (by simp)
      (fun x hmem => hv x (by simp [hmem]))
    have hj : joinSegs sep (s :: s2 :: rest) = s ++ sep :: joinSegs sep (s2 :: rest) := rfl
    rw [hj]
    have hsep : splitOnChar sep (sep :: joinSegs sep (s2 :: rest))
        = [] :: (s2 :: rest) := by
      rw [splitOnChar, if_pos rfl, hrec]
    simpa using splitOnChar_sep_prefix sep s _ [] (s2 :: rest) hsep hx.2

theorem filter_nonempty_id :
    ∀ (segs : List (List Char)), (∀ x ∈ segs, x ≠ []) →
      segs.filter (fun l => !l.isEmpty) = segs := by
  intro segs h
  induction segs with
  | nil => rfl
  | cons x xs ih =>
    have hx : x ≠ [] := h x (by simp)
    have hp : (!x.isEmpty) = true := by
      cases x with
      | nil => exact absurd rfl hx
      | cons y ys => rfl
    rw [List.filter_cons, if_pos hp, ih (fun y hy => h y (by simp [hy]))]

/-- C9: the round-trip law of the PathIndex model — for every live node
id (one for which `computePath` produces a path), resolving the
computed path returns exactly that id. -/
theorem resolve_computePath_roundtrip (tree : FNode) (nodeId : Nat) (p : String)
    (hwf : wfNode tree = true) (hpath : computePath tree nodeId = some p) :
    resolve tree p = some nodeId := by
  rw [computePath] at hpath
  cases hps : pathSegs tree nodeId with
  | none => rw [hps] at hpath; simp at hpath
  | some segs =>
    rw [hps] at hpath
    simp only [Option.map_some'] at hpath
    have hp : p = ⟨'/' :: joinSegs '/' (segs.map String.data)⟩ := by
      injection hpath with h
      exact h.symm
    subst hp
    rw [resolve]
    have hnames := pathSegs_names_ok tree nodeId segs hwf hps
    have hsplit : splitPath ⟨'/' :: joinSegs '/' (segs.map String.data)⟩ = segs := by
      by_cases hnil : segs = []
      · subst hnil
        decide
      · rw [splitPath]
        have hdata : (⟨'/' :: joinSegs '/' (segs.map String.data)⟩ : String).data
            = '/' :: joinSegs '/' (segs.map String.data) := rfl
        rw [hdata]
        have hvalid : ∀ x ∈ segs.map String.data, x ≠ [] ∧ hasChar '/' x = false := by
          intro x hx
          obtain ⟨y, hy, hxy⟩ := List.mem_map.mp hx
          have hok := hnames y hy
          rw [nameOk, Bool.and_eq_true] at hok
          subst hxy
          constructor
          · intro he
            rw [he] at hok
            simp at hok
          · simpa using hok.2
        have hsp : splitOnChar '/' ('/' :: joinSegs '/' (segs.map String.data))
            = [] :: splitOnChar '/' (joinSegs '/' (segs.map String.data)) := by
          simp [splitOnChar]
        rw [hsp, splitOnChar_joinSegs '/' (segs.map String.data)
          (by simpa using hnil) hvalid]
        rw [List.filter_cons, if_neg (by simp)]
        rw [filter_nonempty_id (segs.map String.data) (fun x hx => (hvalid x hx).1)]
        rw [List.map_map]
        have hcomp : ((fun l => (⟨l⟩ : String)) ∘ String.data) = id := by
          funext y
          rfl
        rw [hcomp, List.map_id]
    rw [hsplit]
    exact roundtrip_node tree nodeId segs hwf hps

/-- A PathIndex tree shaped like the starter project: a root folder
holding a project folder that holds one script file. -/
def demoFs : FNode :=
  .node 0 "" true [.node 1 "project" true [.node 2 "script.js" false []]]

/-- Witness for C9: the computed path of the script file (id 2)
resolves back to id 2. -/
theorem resolve_computePath_roundtrip_witness :
    resolve demoFs "/project/script.js" = some 2 :=
  resolve_computePath_roundtrip demoFs 2 "/project/script.js" (by decide) (by decide)
